import Mathlib

/-!
Verification of the point-set-processing excerpt of CGAL:
pca_smooth_point_set (Point_set_processing_3/include/CGAL/pca_smooth_point_set.h)
and the normal-estimation driving test
(Surface_reconstruction_3/test/Surface_reconstruction_3/normal_estimation_test.cpp).

Machine floating-point coordinates are embedded as exact rationals.
External CGAL collaborators that the excerpt calls but does not contain
(the KD-tree k-nearest-neighbor search, the PCA plane fitter, the plane
projection, the MST orientation propagation) are either taken as explicit
function parameters, mirroring the template parameters of the source, or
modelled from the spec where the claim depends on their behavior.
-/

namespace CGALSpec

/-- A 3D point (CGAL Kernel::Point_3), coordinates embedded as rationals. -/
structure Point3 where
  x : ℚ
  y : ℚ
  z : ℚ
deriving DecidableEq, Repr

/-- Dot product of two 3D vectors. -/
def dot (u v : Point3) : ℚ := u.x * v.x + u.y * v.y + u.z * v.z

/-- Componentwise difference of two 3D points. -/
def sub (u v : Point3) : Point3 := ⟨u.x - v.x, u.y - v.y, u.z - v.z⟩

/-- Scalar multiple of a 3D vector. -/
def smul (c : ℚ) (v : Point3) : Point3 := ⟨c * v.x, c * v.y, c * v.z⟩

/-- Componentwise negation of a 3D vector (flipping a normal). -/
def neg3 (v : Point3) : Point3 := ⟨-v.x, -v.y, -v.z⟩

/-- A plane ax + by + cz + d = 0 (CGAL Kernel::Plane_3). -/
structure Plane3 where
  a : ℚ
  b : ℚ
  c : ℚ
  d : ℚ
deriving DecidableEq, Repr

/-- Modelled from the spec: the orthogonal projection of a point onto a
plane (CGAL Plane_3::projection, outside src): subtract from the point its
signed distance along the plane normal. -/
def Plane3.projection (pl : Plane3) (p : Point3) : Point3 :=
  let n : Point3 := ⟨pl.a, pl.b, pl.c⟩
  let t : ℚ := (dot n p + pl.d) / dot n n
  sub p (smul t n)

/-- Squared Euclidean distance between two points. -/
def sqDist (p q : Point3) : ℚ := dot (sub p q) (sub p q)

/-- Insert a point into a list kept sorted by squared distance to the
query, after all points at strictly smaller or equal distance (stable). -/
def insertByDist (q p : Point3) : List Point3 → List Point3
  | [] => [p]
  | r :: rs => if sqDist q p < sqDist q r then p :: r :: rs else r :: insertByDist q p rs

/-- Modelled from the spec: NeighborQuery (CGAL Orthogonal_k_neighbor_search
on a KD-tree, outside src): returns up to m points of the cloud nearest to
the query, nearest first, with a deterministic (insertion-order) tie-break;
the query point itself is returned first when it belongs to the cloud. -/
def kNearestNeighbors (cloud : List Point3) (q : Point3) (m : Nat) : List Point3 :=
  (cloud.foldl (fun acc p => insertByDist q p acc) []).take m

/-- Embeds CGALi::pca_smooth_point (pca_smooth_point_set.h lines 52-93).
The KD-tree search is the function parameter nn (the Tree template
parameter of the source); the PCA plane fit linear_least_squares_fitting_3
is the function parameter fit. The gather loop collects at most k+1
points from the search, breaking early when the search ends; the
CGAL_point_set_processing_precondition on points.size() >= 1 is embedded
as returning none when it fails; otherwise the result is the projection
of the query point onto the fitted plane. -/
def pca_smooth_point (nn : Point3 → Nat → List Point3) (fit : List Point3 → Plane3)
    (query : Point3) (k : Nat) : Option Point3 :=
  let points : List Point3 := (nn query (k + 1)).take (k + 1)
  if 1 ≤ points.length then
    some ((fit points).projection query)
  else
    none

/-- The first precondition assertion of pca_smooth_point_set
(line 142 of the source): the input range is non-empty. -/
def firstPreconditionOk {α : Type} (input : List (Point3 × α)) : Bool :=
  !input.isEmpty

/-- The second precondition assertion of pca_smooth_point_set
(line 145 of the source): at least 2 nearest neighbors requested. -/
def secondPreconditionOk (k : Nat) : Bool :=
  decide (2 ≤ k)

/-- The in-place mutation loop of pca_smooth_point_set (source lines
152-157), smoothing the elements at the given indices in order. Each
element carries a payload of type α standing for any per-element data
other than the position (the property map reads and writes only the
Point3 component, mirroring the cast to a Point reference in the source).
A failing inner precondition aborts the whole pass (none). -/
def smoothLoop {α : Type} (nn : Point3 → Nat → List Point3) (fit : List Point3 → Plane3)
    (k : Nat) : List Nat → List (Point3 × α) → Option (List (Point3 × α))
  | [], state => some state
  | i :: is, state =>
    match state[i]? with
    | none => none
    | some pa =>
      match pca_smooth_point nn fit pa.1 k with
      | none => none
      | some p => smoothLoop nn fit k is (state.set i (p, pa.2))

/-- Embeds pca_smooth_point_set (source lines 119-158). The KD-tree
construction Tree tree(first,beyond) is the application of the search
parameter to the positions of the input as they are on entry; the two
precondition assertions are checked, in source order, before the tree is
built and before any point is relocated; then the loop overwrites every
element's position in place with its smoothed position. -/
def pca_smooth_point_set {α : Type} (search : List Point3 → Point3 → Nat → List Point3)
    (fit : List Point3 → Plane3) (input : List (Point3 × α)) (k : Nat) :
    Option (List (Point3 × α)) :=
  if firstPreconditionOk input then
    if secondPreconditionOk k then
      let tree : List Point3 := input.map Prod.fst
      smoothLoop (search tree) fit k (List.range input.length) input
    else
      none
  else
    none

/-- Option-valued map over a list, failing as soon as one element fails:
the read phase of the read-then-write formulation. -/
def mapOption {α β : Type} (f : α → Option β) : List α → Option (List β)
  | [] => some []
  | a :: as =>
    match f a with
    | none => none
    | some b => (mapOption f as).map (fun bs => b :: bs)

/-- Modelled from the spec: the two-phase (read-then-write) smoothing pass
the spec describes as the safe alternative: build the neighbor index once
on the original positions, compute every smoothed position from the
original positions only, then apply all relocations. -/
def pca_smooth_read_then_write {α : Type} (search : List Point3 → Point3 → Nat → List Point3)
    (fit : List Point3 → Plane3) (input : List (Point3 × α)) (k : Nat) :
    Option (List (Point3 × α)) :=
  if firstPreconditionOk input then
    if secondPreconditionOk k then
      let tree : List Point3 := input.map Prod.fst
      mapOption (fun pa => (pca_smooth_point (search tree) fit pa.1 k).map (fun p => (p, pa.2))) input
    else
      none
  else
    none

/-! ### Generic list helpers -/

theorem set_append_cons {β : Type} (pre suf : List β) (a b : β) :
    (pre ++ a :: suf).set pre.length b = pre ++ b :: suf := by
  induction pre with
  | nil => rfl
  | cons x xs ih => simp [List.set, ih]

theorem getElem?_append_cons {β : Type} (pre suf : List β) (a : β) :
    (pre ++ a :: suf)[pre.length]? = some a := by
  induction pre with
  | nil => simp
  | cons x xs ih => simpa using ih

theorem mapOption_some_length {α β : Type} (f : α → Option β) :
    ∀ (l : List α) (out : List β), mapOption f l = some out → out.length = l.length := by
  intro l
  induction l with
  | nil => intro out h; simp [mapOption] at h; simp [← h]
  | cons a as ih =>
    intro out h
    simp only [mapOption] at h
    cases hfa : f a with
    | none => rw [hfa] at h; simp at h
    | some b =>
      rw [hfa] at h
      cases hrec : mapOption f as with
      | none => rw [hrec] at h; simp at h
      | some bs =>
        rw [hrec] at h
        simp at h
        subst h
        simp [ih bs hrec]

theorem mapOption_some_getElem? {α β : Type} (f : α → Option β) :
    ∀ (l : List α) (out : List β), mapOption f l = some out →
      ∀ (i : Nat) (a : α), l[i]? = some a → out[i]? = f a := by
  intro l
  induction l with
  | nil => intro out h i a ha; simp at ha
  | cons x xs ih =>
    intro out h i a ha
    simp only [mapOption] at h
    cases hfx : f x with
    | none => rw [hfx] at h; simp at h
    | some b =>
      rw [hfx] at h
      cases hrec : mapOption f xs with
      | none => rw [hrec] at h; simp at h
      | some bs =>
        rw [hrec] at h
        simp at h
        subst h
        cases i with
        | zero => simp at ha; subst ha; simpa using hfx.symm
        | succ j =>
          simp at ha
          simpa using ih bs hrec j a ha

theorem mapOption_total {α β : Type} (f : α → Option β) :
    ∀ (l : List α), (∀ a ∈ l, (f a).isSome) → ∃ out, mapOption f l = some out := by
  intro l
  induction l with
  | nil => intro h; exact ⟨[], rfl⟩
  | cons x xs ih =>
    intro h
    have hx : (f x).isSome := h x (by simp)
    cases hfx : f x with
    | none => rw [hfx] at hx; simp at hx
    | some b =>
      obtain ⟨out, hout⟩ := ih (fun a ha => h a (by simp [ha]))
      exact ⟨b :: out, by simp [mapOption, hfx, hout]⟩

/-! ### Equivalence of the in-place loop with the read-then-write pass -/

theorem smoothLoop_eq_mapOption {α : Type} (nn : Point3 → Nat → List Point3)
    (fit : List Point3 → Plane3) (k : Nat) :
    ∀ (suf pre : List (Point3 × α)),
      smoothLoop nn fit k (List.range' pre.length suf.length) (pre ++ suf)
        = (mapOption (fun pa => (pca_smooth_point nn fit pa.1 k).map (fun p => (p, pa.2))) suf).map
            (fun out => pre ++ out) := by
  intro suf
  induction suf with
  | nil => intro pre; simp [smoothLoop, mapOption]
  | cons pa rest ih =>
    intro pre
    rw [List.length_cons, List.range'_succ]
    simp only [smoothLoop, getElem?_append_cons]
    cases hs : pca_smooth_point nn fit pa.1 k with
    | none => simp [mapOption, hs]
    | some p =>
      dsimp only
      rw [set_append_cons]
      have hlen : pre.length + 1 = (pre ++ [(p, pa.2)]).length := by simp
      have hsplit : pre ++ (p, pa.2) :: rest = (pre ++ [(p, pa.2)]) ++ rest := by simp
      rw [hsplit, hlen, ih (pre ++ [(p, pa.2)])]
      simp only [mapOption, hs, Option.map_some]
      cases mapOption (fun q => (pca_smooth_point nn fit q.1 k).map (fun r => (r, q.2))) rest with
      | none => rfl
      | some bs => simp

theorem smooth_eq_two_phase {α : Type} (search : List Point3 → Point3 → Nat → List Point3)
    (fit : List Point3 → Plane3) (input : List (Point3 × α)) (k : Nat) :
    pca_smooth_point_set search fit input k = pca_smooth_read_then_write search fit input k := by
  unfold pca_smooth_point_set pca_smooth_read_then_write
  cases h1 : firstPreconditionOk input
  · rfl
  · cases h2 : secondPreconditionOk k
    · rfl
    · simp only [if_true]
      have := smoothLoop_eq_mapOption (search (input.map Prod.fst)) fit k input []
      simp only [List.nil_append, List.length_nil] at this
      rw [← List.range_eq_range'] at this
      rw [this]
      cases mapOption
          (fun pa => (pca_smooth_point (search (input.map Prod.fst)) fit pa.1 k).map
            (fun p => (p, pa.2))) input with
      | none => rfl
      | some out => simp

/-! ### Properties of the modelled neighbor search -/

theorem insertByDist_length (q p : Point3) :
    ∀ l : List Point3, (insertByDist q p l).length = l.length + 1 := by
  intro l
  induction l with
  | nil => rfl
  | cons r rs ih =>
    by_cases h : sqDist q p < sqDist q r
    · simp [insertByDist, h]
    · simp [insertByDist, h, ih]

theorem foldl_insertByDist_length (q : Point3) :
    ∀ (cloud init : List Point3),
      (cloud.foldl (fun acc p => insertByDist q p acc) init).length
        = init.length + cloud.length := by
  intro cloud
  induction cloud with
  | nil => intro init; simp
  | cons p ps ih =>
    intro init
    simp only [List.foldl_cons]
    rw [ih (insertByDist q p init), insertByDist_length]
    simp only [List.length_cons]
    omega

theorem kNearestNeighbors_length (cloud : List Point3) (q : Point3) (m : Nat) :
    (kNearestNeighbors cloud q m).length = min m cloud.length := by
  unfold kNearestNeighbors
  rw [List.length_take, foldl_insertByDist_length]
  simp

theorem kNearestNeighbors_take (cloud : List Point3) (q : Point3) (m : Nat) :
    (kNearestNeighbors cloud q m).take m = kNearestNeighbors cloud q m := by
  unfold kNearestNeighbors
  rw [List.take_take]
  simp

/-- The single-point smoothing succeeds exactly when the search returned
at least one point; it then returns the projection onto the fitted plane
of the gathered neighborhood. -/
theorem pca_smooth_point_eq_of_ne_nil (nn : Point3 → Nat → List Point3)
    (fit : List Point3 → Plane3) (q : Point3) (k : Nat)
    (h : nn q (k + 1) ≠ []) :
    pca_smooth_point nn fit q k
      = some ((fit ((nn q (k + 1)).take (k + 1))).projection q) := by
  unfold pca_smooth_point
  have hlen : 1 ≤ ((nn q (k + 1)).take (k + 1)).length := by
    rw [List.length_take]
    cases hnn : nn q (k + 1) with
    | nil => exact absurd hnn h
    | cons a as => simp [Nat.succ_min_succ]
  rw [if_pos hlen]

/-! ### Claim theorems for the smoothing pass -/

/-- C9: the in-place smoothing pass equals the two-phase read-then-write
implementation: the KD-tree is built once from the original positions
before any mutation, and every smoothed position is a function of the
original positions only, independent of relocations applied earlier in
the same pass. -/
theorem pca_smooth_in_place_eq_read_then_write {α : Type}
    (search : List Point3 → Point3 → Nat → List Point3)
    (fit : List Point3 → Plane3) (input : List (Point3 × α)) (k : Nat) :
    pca_smooth_point_set search fit input k
      = pca_smooth_read_then_write search fit input k :=
  smooth_eq_two_phase search fit input k

/-- C1: when pca_smooth_point_set succeeds, the element at every index i
has its position replaced by the orthogonal projection of the original
position onto the plane fitted (by the supplied PCA fitter) to the up to
k+1 nearest neighbors of the original position in the original cloud, as
returned by the KD-tree search; the payload is untouched. -/
theorem pca_smooth_replaces_with_projection {α : Type} (fit : List Point3 → Plane3)
    (input : List (Point3 × α)) (k i : Nat) (out : List (Point3 × α)) (pa : Point3 × α)
    (hrun : pca_smooth_point_set kNearestNeighbors fit input k = some out)
    (hi : input[i]? = some pa) :
    out[i]?
      = some ((fit (kNearestNeighbors (input.map Prod.fst) pa.1 (k + 1))).projection pa.1,
          pa.2) := by
  rw [smooth_eq_two_phase] at hrun
  unfold pca_smooth_read_then_write at hrun
  cases h1 : firstPreconditionOk input with
  | false => rw [h1] at hrun; simp at hrun
  | true =>
    rw [h1] at hrun
    cases h2 : secondPreconditionOk k with
    | false => rw [h2] at hrun; simp at hrun
    | true =>
      rw [h2] at hrun
      simp only [if_true] at hrun
      have hne : input ≠ [] := by
        intro hcon
        rw [hcon] at h1
        simp [firstPreconditionOk] at h1
      have hcloud : kNearestNeighbors (input.map Prod.fst) pa.1 (k + 1) ≠ [] := by
        intro hcon
        have := kNearestNeighbors_length (input.map Prod.fst) pa.1 (k + 1)
        rw [hcon] at this
        simp at this
        cases input with
        | nil => exact hne rfl
        | cons a as => simp only [List.length_map, List.length_cons] at this; omega
      have hout := mapOption_some_getElem? _ input out hrun i pa hi
      rw [hout, pca_smooth_point_eq_of_ne_nil _ fit pa.1 k hcloud,
        kNearestNeighbors_take]
      rfl

/-- Witness for C1: a concrete two-point cloud smoothed with a constant
fitter; index 0 is replaced by the projection of its original position. -/
theorem pca_smooth_replaces_with_projection_witness :
    (([((⟨0, 0, 0⟩ : Point3), ()), ((⟨2, 0, 0⟩ : Point3), ())] : List (Point3 × Unit)))[0]?
      = some
          (((fun _ => (⟨0, 0, 1, 0⟩ : Plane3))
              (kNearestNeighbors
                (([((⟨0, 0, 0⟩ : Point3), ()), ((⟨2, 0, 0⟩ : Point3), ())]).map Prod.fst)
                ⟨0, 0, 0⟩ (2 + 1))).projection ⟨0, 0, 0⟩, ()) :=
  pca_smooth_replaces_with_projection (fun _ => ⟨0, 0, 1, 0⟩)
    [(⟨0, 0, 0⟩, ()), (⟨2, 0, 0⟩, ())] 2 0 [(⟨0, 0, 0⟩, ()), (⟨2, 0, 0⟩, ())] (⟨0, 0, 0⟩, ())
    (by
      norm_num [pca_smooth_point_set, firstPreconditionOk, secondPreconditionOk, smoothLoop,
        pca_smooth_point, kNearestNeighbors, insertByDist, sqDist, dot, sub, smul,
        Plane3.projection, List.range_succ])
    (by rfl)

/-- C3: the single-point smoothing proceeds with however many points the
neighbor search returned as long as at least one remains, and hits the
precondition failure exactly when zero points were gathered. -/
theorem pca_smooth_point_needs_one_neighbor (nn : Point3 → Nat → List Point3)
    (fit : List Point3 → Plane3) (q : Point3) (k : Nat) :
    (nn q (k + 1) ≠ [] → ∃ r, pca_smooth_point nn fit q k = some r)
    ∧ (nn q (k + 1) = [] → pca_smooth_point nn fit q k = none) := by
  constructor
  · intro h
    exact ⟨_, pca_smooth_point_eq_of_ne_nil nn fit q k h⟩
  · intro h
    unfold pca_smooth_point
    rw [h]
    simp

/-- Witness for C3: a search returning one point lets smoothing proceed; a
search returning nothing makes it fail. -/
theorem pca_smooth_point_needs_one_neighbor_witness :
    (∃ r, pca_smooth_point (fun _ _ => [⟨0, 0, 0⟩]) (fun _ => ⟨0, 0, 1, 0⟩) ⟨0, 0, 0⟩ 2
        = some r)
    ∧ pca_smooth_point (fun _ _ => []) (fun _ => ⟨0, 0, 1, 0⟩) ⟨0, 0, 0⟩ 2 = none :=
  ⟨(pca_smooth_point_needs_one_neighbor (fun _ _ => [⟨0, 0, 0⟩]) (fun _ => ⟨0, 0, 1, 0⟩)
      ⟨0, 0, 0⟩ 2).1 (by simp),
   (pca_smooth_point_needs_one_neighbor (fun _ _ => []) (fun _ => ⟨0, 0, 1, 0⟩)
      ⟨0, 0, 0⟩ 2).2 rfl⟩

/-- C4: a successful smoothing pass preserves the cardinality and the
per-index payload (everything other than the position) of the input. -/
theorem pca_smooth_preserves_length_and_payload {α : Type}
    (search : List Point3 → Point3 → Nat → List Point3) (fit : List Point3 → Plane3)
    (input : List (Point3 × α)) (k : Nat) (out : List (Point3 × α))
    (hrun : pca_smooth_point_set search fit input k = some out) :
    out.length = input.length
    ∧ ∀ i : Nat, (out[i]?).map Prod.snd = (input[i]?).map Prod.snd := by
  rw [smooth_eq_two_phase] at hrun
  unfold pca_smooth_read_then_write at hrun
  cases h1 : firstPreconditionOk input with
  | false => rw [h1] at hrun; simp at hrun
  | true =>
    rw [h1] at hrun
    cases h2 : secondPreconditionOk k with
    | false => rw [h2] at hrun; simp at hrun
    | true =>
      rw [h2] at hrun
      simp only [if_true] at hrun
      have hlen := mapOption_some_length _ input out hrun
      refine ⟨hlen, fun i => ?_⟩
      by_cases hi : i < input.length
      · have ha : input[i]? = some input[i] := List.getElem?_eq_getElem hi
        have hout := mapOption_some_getElem? _ input out hrun i input[i] ha
        cases hp : pca_smooth_point (search (input.map Prod.fst)) fit input[i].1 k with
        | none => rw [hp] at hout; simp at hout; omega
        | some p =>
          rw [hp] at hout
          rw [hout, ha]
          simp
      · have h1' : input[i]? = none := List.getElem?_eq_none (by omega)
        have h2' : out[i]? = none := List.getElem?_eq_none (by omega)
        rw [h1', h2']

/-- Witness for C4 at a concrete two-point cloud. -/
theorem pca_smooth_preserves_length_and_payload_witness :
    ([((⟨0, 0, 0⟩ : Point3), ()), ((⟨2, 0, 0⟩ : Point3), ())] : List (Point3 × Unit)).length
        = ([((⟨0, 0, 0⟩ : Point3), ()), ((⟨2, 0, 0⟩ : Point3), ())] : List (Point3 × Unit)).length
    ∧ ∀ i : Nat,
        ((([((⟨0, 0, 0⟩ : Point3), ()), ((⟨2, 0, 0⟩ : Point3), ())] :
            List (Point3 × Unit)))[i]?).map Prod.snd
          = ((([((⟨0, 0, 0⟩ : Point3), ()), ((⟨2, 0, 0⟩ : Point3), ())] :
              List (Point3 × Unit)))[i]?).map Prod.snd :=
  pca_smooth_preserves_length_and_payload kNearestNeighbors (fun _ => ⟨0, 0, 1, 0⟩)
    [(⟨0, 0, 0⟩, ()), (⟨2, 0, 0⟩, ())] 2 [(⟨0, 0, 0⟩, ()), (⟨2, 0, 0⟩, ())]
    (by
      norm_num [pca_smooth_point_set, firstPreconditionOk, secondPreconditionOk, smoothLoop,
        pca_smooth_point, kNearestNeighbors, insertByDist, sqDist, dot, sub, smul,
        Plane3.projection, List.range_succ])

/-- C8: the two entry preconditions of pca_smooth_point_set: an empty
range or k less than 2 makes the pass fail before any point is relocated,
and on any call satisfying both preconditions neither assertion fires. -/
theorem pca_smooth_precondition_gate {α : Type}
    (search : List Point3 → Point3 → Nat → List Point3) (fit : List Point3 → Plane3) :
    (∀ k : Nat, pca_smooth_point_set (α := α) search fit [] k = none)
    ∧ (∀ (input : List (Point3 × α)) (k : Nat), k < 2 →
        pca_smooth_point_set search fit input k = none)
    ∧ (∀ (input : List (Point3 × α)) (k : Nat), input ≠ [] → 2 ≤ k →
        firstPreconditionOk input = true ∧ secondPreconditionOk k = true) := by
  refine ⟨fun k => ?_, fun input k hk => ?_, fun input k h1 h2 => ?_⟩
  · simp [pca_smooth_point_set, firstPreconditionOk]
  · have h2 : secondPreconditionOk k = false := by
      simp [secondPreconditionOk]
      omega
    unfold pca_smooth_point_set
    rw [h2]
    cases firstPreconditionOk input <;> rfl
  · constructor
    · cases input with
      | nil => exact absurd rfl h1
      | cons a as => rfl
    · simp [secondPreconditionOk, h2]

/-- Witness for C8: the empty range and k = 1 both fail; a singleton range
with k = 2 passes both precondition checks. -/
theorem pca_smooth_precondition_gate_witness :
    pca_smooth_point_set kNearestNeighbors (fun _ => (⟨0, 0, 1, 0⟩ : Plane3))
        ([] : List (Point3 × Unit)) 5 = none
    ∧ pca_smooth_point_set kNearestNeighbors (fun _ => (⟨0, 0, 1, 0⟩ : Plane3))
        ([((⟨0, 0, 0⟩ : Point3), ())]) 1 = none
    ∧ (firstPreconditionOk ([((⟨0, 0, 0⟩ : Point3), ())]) = true
        ∧ secondPreconditionOk 2 = true) :=
  ⟨(pca_smooth_precondition_gate kNearestNeighbors (fun _ => ⟨0, 0, 1, 0⟩)).1 5,
   (pca_smooth_precondition_gate kNearestNeighbors (fun _ => ⟨0, 0, 1, 0⟩)).2.1
     [(⟨0, 0, 0⟩, ())] 1 (by omega),
   (pca_smooth_precondition_gate kNearestNeighbors (fun _ => ⟨0, 0, 1, 0⟩)).2.2
     [(⟨0, 0, 0⟩, ())] 2 (List.cons_ne_nil _ _) (by omega)⟩

/-- C10: on a non-empty input with k at least 2, using the KD-tree search
built from the input itself, every per-point gather collects at least one
point (the inner precondition is unreachable) and the whole smoothing pass
succeeds. -/
theorem pca_smooth_total_on_nonempty {α : Type} (fit : List Point3 → Plane3)
    (input : List (Point3 × α)) (k : Nat) (h1 : input ≠ []) (h2 : 2 ≤ k) :
    (∀ pa ∈ input,
        1 ≤ ((kNearestNeighbors (input.map Prod.fst) pa.1 (k + 1)).take (k + 1)).length)
    ∧ ∃ out, pca_smooth_point_set kNearestNeighbors fit input k = some out := by
  have hpos : 0 < input.length := List.length_pos.mpr h1
  have hgather : ∀ pa : Point3 × α,
      1 ≤ ((kNearestNeighbors (input.map Prod.fst) pa.1 (k + 1)).take (k + 1)).length := by
    intro pa
    rw [kNearestNeighbors_take, kNearestNeighbors_length]
    simp only [List.length_map]
    omega
  refine ⟨fun pa _ => hgather pa, ?_⟩
  rw [smooth_eq_two_phase]
  unfold pca_smooth_read_then_write
  have hfp : firstPreconditionOk input = true := by
    cases input with
    | nil => exact absurd rfl h1
    | cons a as => rfl
  have hsp : secondPreconditionOk k = true := by
    simp [secondPreconditionOk, h2]
  rw [hfp, hsp]
  simp only [if_true]
  apply mapOption_total
  intro pa _
  have hne : kNearestNeighbors (input.map Prod.fst) pa.1 (k + 1) ≠ [] := by
    apply List.ne_nil_of_length_pos
    rw [kNearestNeighbors_length]
    simp only [List.length_map]
    omega
  rw [pca_smooth_point_eq_of_ne_nil _ fit pa.1 k hne]
  rfl

/-- Witness for C10: a singleton cloud with k = 2 gathers a point for
every query and the pass succeeds. -/
theorem pca_smooth_total_on_nonempty_witness :
    (∀ pa ∈ ([((⟨0, 0, 0⟩ : Point3), ())] : List (Point3 × Unit)),
        1 ≤ ((kNearestNeighbors (([((⟨0, 0, 0⟩ : Point3), ())]).map Prod.fst) pa.1 (2 + 1)).take
            (2 + 1)).length)
    ∧ ∃ out,
        pca_smooth_point_set kNearestNeighbors (fun _ => (⟨0, 0, 1, 0⟩ : Plane3))
          ([((⟨0, 0, 0⟩ : Point3), ())]) 2 = some out :=
  pca_smooth_total_on_nonempty (fun _ => ⟨0, 0, 1, 0⟩) [(⟨0, 0, 0⟩, ())] 2
    (List.cons_ne_nil _ _) (by omega)

/-! ### Orientation propagation (normal_estimation_test.cpp and its callee) -/

/-- An orientable normal (CGAL Orientable_normal_3): a vector together
with an oriented flag, false after estimation, true after propagation. -/
structure Orientable_normal where
  vec : Point3
  oriented : Bool
deriving DecidableEq, Repr

/-- Modelled from the spec: one vertex of the MST orientation traversal
(orient_normals_minimum_spanning_tree_3 is outside src). A root vertex
keeps its normal and is marked oriented; a non-root vertex compares its
normal with its parent's already-processed normal, flips it when the dot
product is negative, and is marked oriented. -/
def orientStep (parent : Nat → Option Nat) (state : List Orientable_normal) (i : Nat) :
    List Orientable_normal :=
  match state[i]? with
  | none => state
  | some ni =>
    match parent i with
    | none => state.set i ⟨ni.vec, true⟩
    | some j =>
      match state[j]? with
      | none => state.set i ⟨ni.vec, true⟩
      | some nj =>
        if dot nj.vec ni.vec < 0 then state.set i ⟨neg3 ni.vec, true⟩
        else state.set i ⟨ni.vec, true⟩

/-- Modelled from the spec: orient_normals_minimum_spanning_tree_3
(outside src, called by the test at lines 100-105). The minimum spanning
tree or forest over the Riemannian graph is given by its parent map; the
vertices are traversed in an order where every parent precedes its
children (roots are reference vertices), each vertex being visited once. -/
def orient_normals_minimum_spanning_tree_3 (parent : Nat → Option Nat)
    (normals : List Orientable_normal) : List Orientable_normal :=
  (List.range normals.length).foldl (orientStep parent) normals

/-- The check loop of the driving test (test lines 215-227): the number of
computed normals whose oriented flag is still false. -/
def countUnoriented (ns : List Orientable_normal) : Nat :=
  (ns.filter (fun n => !n.oriented)).length

/-- The driving test (lines 228-232) treats any unoriented normal after
propagation as a failure of the file being processed. -/
def unorientedFailure (ns : List Orientable_normal) : Bool :=
  decide (0 < countUnoriented ns)

/-- The unit-vector assertion of the driving test, exactly as written at
line 222 of the source: assert(norm > 0.99 || norm < 1.01). -/
def unitNormCheck (norm : ℚ) : Bool :=
  decide ((99 : ℚ) / 100 < norm) || decide (norm < (101 : ℚ) / 100)

/-! ### Structural lemmas about the propagation fold -/

theorem orientStep_length (parent : Nat → Option Nat) (state : List Orientable_normal)
    (i : Nat) : (orientStep parent state i).length = state.length := by
  unfold orientStep
  cases hsi : state[i]? with
  | none => rfl
  | some ni =>
    dsimp only
    cases parent i with
    | none => simp
    | some j =>
      dsimp only
      cases hsj : state[j]? with
      | none => simp
      | some nj =>
        by_cases h : dot nj.vec ni.vec < 0 <;> simp [h]

theorem orientStep_getElem?_ne (parent : Nat → Option Nat) (state : List Orientable_normal)
    (i t : Nat) (h : t ≠ i) : (orientStep parent state i)[t]? = state[t]? := by
  unfold orientStep
  cases hsi : state[i]? with
  | none => rfl
  | some ni =>
    dsimp only
    cases parent i with
    | none => exact List.getElem?_set_ne h.symm
    | some j =>
      dsimp only
      cases hsj : state[j]? with
      | none => exact List.getElem?_set_ne h.symm
      | some nj =>
        dsimp only
        by_cases hd : dot nj.vec ni.vec < 0
        · rw [if_pos hd]; exact List.getElem?_set_ne h.symm
        · rw [if_neg hd]; exact List.getElem?_set_ne h.symm

theorem orientFold_length (parent : Nat → Option Nat) :
    ∀ (is : List Nat) (state : List Orientable_normal),
      (is.foldl (orientStep parent) state).length = state.length := by
  intro is
  induction is with
  | nil => intro state; rfl
  | cons i is ih =>
    intro state
    simp only [List.foldl_cons]
    rw [ih, orientStep_length]

theorem orientFold_succ (parent : Nat → Option Nat) (normals : List Orientable_normal)
    (m : Nat) :
    (List.range (m + 1)).foldl (orientStep parent) normals
      = orientStep parent ((List.range m).foldl (orientStep parent) normals) m := by
  rw [List.range_succ, List.foldl_append]
  rfl

theorem orientFold_stable (parent : Nat → Option Nat) (normals : List Orientable_normal)
    (i : Nat) :
    ∀ m : Nat, i < m →
      ((List.range m).foldl (orientStep parent) normals)[i]?
        = ((List.range (i + 1)).foldl (orientStep parent) normals)[i]? := by
  intro m
  induction m with
  | zero => intro h; omega
  | succ m ih =>
    intro h
    by_cases hm : i < m
    · rw [orientFold_succ, orientStep_getElem?_ne _ _ _ _ (by omega), ih hm]
    · have : i = m := by omega
      subst this
      rfl

theorem lt_length_of_getElem?_some {β : Type} {l : List β} {i : Nat} {a : β}
    (h : l[i]? = some a) : i < l.length := by
  by_contra hc
  rw [List.getElem?_eq_none (by omega)] at h
  exact Option.noConfusion h

theorem dot_neg3 (u v : Point3) : dot u (neg3 v) = -(dot u v) := by
  unfold dot neg3
  ring

theorem orientStep_marks_oriented (parent : Nat → Option Nat)
    (state : List Orientable_normal) (i : Nat) (ni : Orientable_normal)
    (hsi : state[i]? = some ni) :
    ∃ v, (orientStep parent state i)[i]? = some ⟨v, true⟩ := by
  have hi : i < state.length := lt_length_of_getElem?_some hsi
  unfold orientStep
  rw [hsi]
  dsimp only
  cases parent i with
  | none => exact ⟨ni.vec, List.getElem?_set_eq_of_lt _ hi⟩
  | some j =>
    dsimp only
    cases state[j]? with
    | none => exact ⟨ni.vec, List.getElem?_set_eq_of_lt _ hi⟩
    | some nj =>
      dsimp only
      by_cases hd : dot nj.vec ni.vec < 0
      · rw [if_pos hd]
        exact ⟨neg3 ni.vec, List.getElem?_set_eq_of_lt _ hi⟩
      · rw [if_neg hd]
        exact ⟨ni.vec, List.getElem?_set_eq_of_lt _ hi⟩

theorem orientStep_getElem?_parent (parent : Nat → Option Nat)
    (state : List Orientable_normal) (i j : Nat) (ni nj : Orientable_normal)
    (hsi : state[i]? = some ni) (hj : parent i = some j) (hsj : state[j]? = some nj) :
    (orientStep parent state i)[i]?
      = some (if dot nj.vec ni.vec < 0 then ⟨neg3 ni.vec, true⟩ else ⟨ni.vec, true⟩) := by
  have hi : i < state.length := lt_length_of_getElem?_some hsi
  unfold orientStep
  rw [hsi]
  dsimp only
  rw [hj]
  dsimp only
  rw [hsj]
  dsimp only
  by_cases hd : dot nj.vec ni.vec < 0
  · rw [if_pos hd, if_pos hd]
    exact List.getElem?_set_eq_of_lt _ hi
  · rw [if_neg hd, if_neg hd]
    exact List.getElem?_set_eq_of_lt _ hi

theorem orient_result_oriented (parent : Nat → Option Nat)
    (normals : List Orientable_normal) (i : Nat) (hi : i < normals.length) :
    ∃ v, (orient_normals_minimum_spanning_tree_3 parent normals)[i]? = some ⟨v, true⟩ := by
  unfold orient_normals_minimum_spanning_tree_3
  rw [orientFold_stable parent normals i normals.length hi, orientFold_succ]
  have hlen : ((List.range i).foldl (orientStep parent) normals).length = normals.length :=
    orientFold_length parent (List.range i) normals
  have hsi : ((List.range i).foldl (orientStep parent) normals)[i]?
      = some ((List.range i).foldl (orientStep parent) normals)[i] :=
    List.getElem?_eq_getElem (by omega)
  exact orientStep_marks_oriented parent _ i _ hsi

/-- C6: after the MST orientation propagation every processed vertex has
its oriented flag set to true, so the driving test counts zero unoriented
normals and does not flag a failure. -/
theorem orient_marks_every_normal_oriented (parent : Nat → Option Nat)
    (normals : List Orientable_normal) :
    countUnoriented (orient_normals_minimum_spanning_tree_3 parent normals) = 0
    ∧ unorientedFailure (orient_normals_minimum_spanning_tree_3 parent normals) = false := by
  have hall : ∀ a ∈ orient_normals_minimum_spanning_tree_3 parent normals,
      a.oriented = true := by
    intro a ha
    obtain ⟨i, hilt, hgi⟩ := List.mem_iff_getElem.mp ha
    have hlen : (orient_normals_minimum_spanning_tree_3 parent normals).length
        = normals.length := orientFold_length parent _ normals
    obtain ⟨v, hv⟩ := orient_result_oriented parent normals i (by omega)
    have : (orient_normals_minimum_spanning_tree_3 parent normals)[i]? = some a := by
      rw [List.getElem?_eq_getElem hilt, hgi]
    rw [this] at hv
    have := Option.some.inj hv
    rw [this]
  have hcount : countUnoriented (orient_normals_minimum_spanning_tree_3 parent normals) = 0 := by
    unfold countUnoriented
    have : (orient_normals_minimum_spanning_tree_3 parent normals).filter
        (fun n => !n.oriented) = [] := by
      rw [List.filter_eq_nil_iff]
      intro a ha
      rw [hall a ha]
      simp
    rw [this]
    rfl
  refine ⟨hcount, ?_⟩
  unfold unorientedFailure
  rw [hcount]
  rfl

/-- C5: after the MST orientation propagation, for every tree edge from a
parent j to a child i the dot product of the final normals is
non-negative: the child was flipped exactly when it disagreed with its
parent, and the parent's normal was final before the child was visited. -/
theorem orient_sign_consistency_on_tree_edges (parent : Nat → Option Nat)
    (normals : List Orientable_normal)
    (hpar : ∀ i j, parent i = some j → j < i)
    (i j : Nat) (hij : parent i = some j) (hi : i < normals.length)
    (ni nj : Orientable_normal)
    (hni : (orient_normals_minimum_spanning_tree_3 parent normals)[i]? = some ni)
    (hnj : (orient_normals_minimum_spanning_tree_3 parent normals)[j]? = some nj) :
    0 ≤ dot nj.vec ni.vec := by
  have hj : j < i := hpar i j hij
  unfold orient_normals_minimum_spanning_tree_3 at hni hnj
  rw [orientFold_stable parent normals i normals.length hi, orientFold_succ] at hni
  rw [orientFold_stable parent normals j normals.length (by omega)] at hnj
  have hstatej : ((List.range i).foldl (orientStep parent) normals)[j]? = some nj := by
    rw [orientFold_stable parent normals j i hj]
    exact hnj
  have hlen : ((List.range i).foldl (orientStep parent) normals).length = normals.length :=
    orientFold_length parent (List.range i) normals
  have hstatei : ((List.range i).foldl (orientStep parent) normals)[i]?
      = some ((List.range i).foldl (orientStep parent) normals)[i] :=
    List.getElem?_eq_getElem (by omega)
  rw [orientStep_getElem?_parent parent _ i j _ nj hstatei hij hstatej] at hni
  have hni' := Option.some.inj hni
  by_cases hd : dot nj.vec ((List.range i).foldl (orientStep parent) normals)[i].vec < 0
  · rw [if_pos hd] at hni'
    rw [← hni', dot_neg3]
    linarith
  · rw [if_neg hd] at hni'
    rw [← hni']
    exact le_of_not_lt hd

/-- Witness for C5: a two-vertex tree whose child normal initially points
opposite to its parent; after propagation the edge dot product is
non-negative. -/
theorem orient_sign_consistency_witness :
    0 ≤ dot (Orientable_normal.mk ⟨0, 0, 1⟩ true).vec
        (Orientable_normal.mk ⟨0, 0, 1⟩ true).vec :=
  orient_sign_consistency_on_tree_edges (fun t => if t = 1 then some 0 else none)
    [⟨⟨0, 0, 1⟩, false⟩, ⟨⟨0, 0, -1⟩, false⟩]
    (by
      intro a b h
      by_cases ha : a = 1
      · subst ha
        simp at h
        omega
      · simp [ha] at h)
    1 0 (by decide) (by decide)
    ⟨⟨0, 0, 1⟩, true⟩ ⟨⟨0, 0, 1⟩, true⟩
    (by
      norm_num [orient_normals_minimum_spanning_tree_3, orientStep, dot, neg3,
        List.range_succ])
    (by
      norm_num [orient_normals_minimum_spanning_tree_3, orientStep, dot, neg3,
        List.range_succ])

/-- C2: the unit-vector assertion exactly as written in the test is a
tautology: it evaluates to true for every magnitude, in particular at
magnitude 2, which lies outside the interval from 0.99 to 1.01, so the
assertion can never abort the run. -/
theorem unitNormCheck_never_fails :
    unitNormCheck 2 = true ∧ (101 : ℚ) / 100 < 2 ∧ ∀ norm : ℚ, unitNormCheck norm = true := by
  refine ⟨?_, by norm_num, ?_⟩
  · norm_num [unitNormCheck]
  · intro norm
    unfold unitNormCheck
    by_cases h : (99 : ℚ) / 100 < norm
    · simp [h]
    · have h2 : norm < (101 : ℚ) / 100 := lt_of_le_of_lt (not_lt.mp h) (by norm_num)
      simp [h2]

/-! ### The driving tool's main loop -/

/-- One input file of the driving test, abstracted: whether its name
contains a dot at all (std::string::find_last_of at test line 160 finds
one), whether the substring from the last dot is .xyz or .XYZ, whether
the xyz reader succeeds on it, the points it contains, and the normals
the (external) estimation and orientation pipeline computes for them. -/
structure FileInput where
  hasDot : Bool
  hasXyzExtension : Bool
  readable : Bool
  points : List Point3
  normals : List Orientable_normal

/-- The three possible outcomes of the per-file body of main (test lines
145-234): an uncaught exception aborting the whole process, a reported
failure that sets the accumulated error and continues, or success. -/
inductive FileStep where
  | aborted
  | failed
  | passed
deriving DecidableEq, Repr

/-- Embeds the per-file body of main (test lines 145-234). When the file
name has no dot, find_last_of returns npos and substr(npos) at line 160
throws std::out_of_range, which no handler catches: the process aborts.
Otherwise a wrong extension, an unreadable file, an empty point set, or
any normal left unoriented after propagation each print an error, set the
accumulated fatal error and continue with the next file. -/
def processFile (f : FileInput) : FileStep :=
  if !f.hasDot then FileStep.aborted
  else if f.hasXyzExtension then
    if f.readable then
      if f.points.isEmpty then FileStep.failed
      else if unorientedFailure f.normals then FileStep.failed
      else FileStep.passed
    else FileStep.failed
  else FileStep.failed

/-- How a run of the driving tool ends: main returns an exit status, or
the process aborts on an uncaught exception without returning one. -/
inductive ToolResult where
  | exited (status : Nat)
  | aborted
deriving DecidableEq, Repr

/-- The file-processing loop of main (test lines 145-234) with the
accumulated fatal error as state: an aborting file stops the run at once,
leaving the remaining files unprocessed; a failing file sets the error to
EXIT_FAILURE (1) and continues; a passing file leaves it unchanged. -/
def runFiles : List FileInput → Nat → ToolResult
  | [], acc => ToolResult.exited acc
  | f :: fs, acc =>
    match processFile f with
    | FileStep.aborted => ToolResult.aborted
    | FileStep.failed => runFiles fs 1
    | FileStep.passed => runFiles fs acc

/-- Embeds main (test lines 119-241): with zero file arguments the usage
text is printed and EXIT_FAILURE returned; otherwise the files are
processed in turn starting from accumulated error EXIT_SUCCESS (0). -/
def normal_estimation_main (files : List FileInput) : ToolResult :=
  if files.isEmpty then ToolResult.exited 1
  else runFiles files 0

theorem processFile_not_aborted (f : FileInput) (h : f.hasDot = true) :
    processFile f ≠ FileStep.aborted := by
  unfold processFile
  rw [h]
  simp only [Bool.not_true, Bool.false_eq_true, if_false]
  split_ifs <;> simp

theorem runFiles_exit_all_dotted :
    ∀ (files : List FileInput), (∀ f ∈ files, f.hasDot = true) → ∀ acc : Nat,
      runFiles files acc
        = ToolResult.exited
            (if files.any (fun f => decide (processFile f = FileStep.failed)) then 1
             else acc) := by
  intro files
  induction files with
  | nil => intro _ acc; simp [runFiles]
  | cons f fs ih =>
    intro hd acc
    have hf : f.hasDot = true := hd f (by simp)
    have hrest : ∀ g ∈ fs, g.hasDot = true := fun g hg => hd g (by simp [hg])
    cases hpf : processFile f with
    | aborted => exact absurd hpf (processFile_not_aborted f hf)
    | failed =>
      simp only [runFiles, hpf]
      rw [ih hrest 1]
      cases hany : fs.any (fun g => decide (processFile g = FileStep.failed)) <;>
        simp [List.any_cons, hpf, hany]
    | passed =>
      simp only [runFiles, hpf]
      rw [ih hrest acc]
      simp [List.any_cons, hpf]

/-- When every file name contains a dot the abort path is unreachable and
the tool behaves as the spec describes: it processes every file, a
failure only sets the accumulated error, and the exit status is non-zero
exactly when there were no arguments or some file failed. -/
theorem normal_estimation_exit_all_dotted (files : List FileInput)
    (hd : ∀ f ∈ files, f.hasDot = true) :
    normal_estimation_main files ≠ ToolResult.exited 0
      ↔ files = [] ∨ ∃ f ∈ files, processFile f = FileStep.failed := by
  unfold normal_estimation_main
  cases hfe : files.isEmpty with
  | true =>
    have : files = [] := List.isEmpty_iff.mp hfe
    simp [this]
  | false =>
    have hne : files ≠ [] := by
      intro hcon
      rw [hcon] at hfe
      simp at hfe
    rw [if_neg (by simp [hfe]), runFiles_exit_all_dotted files hd 0]
    by_cases ha : files.any (fun f => decide (processFile f = FileStep.failed)) = true
    · rw [if_pos ha]
      simp only [ne_eq, ToolResult.exited.injEq, one_ne_zero, not_false_eq_true, true_iff]
      right
      obtain ⟨f, hfm, hff⟩ := List.any_eq_true.mp ha
      exact ⟨f, hfm, of_decide_eq_true hff⟩
    · rw [if_neg ha]
      simp only [ne_eq, not_true_eq_false, false_iff]
      push_neg
      refine ⟨hne, fun f hf hff => ?_⟩
      exact ha (List.any_eq_true.mpr ⟨f, hf, decide_eq_true hff⟩)

/-- C7: the driving tool does not continue past every per-file failure: a
file whose name contains no dot makes the substr call at test line 160
throw an uncaught std::out_of_range, so the run aborts before any later
file is processed and no accumulated status is returned, although the
same later file on its own is processed to completion with exit status 0.
This contradicts the claimed report-and-continue behavior for every
argument list. -/
theorem normal_estimation_aborts_on_dotless_name :
    normal_estimation_main
        [⟨false, false, false, [], []⟩,
         ⟨true, true, true, [⟨0, 0, 1⟩], [⟨⟨0, 0, 1⟩, true⟩]⟩]
      = ToolResult.aborted
    ∧ normal_estimation_main [⟨true, true, true, [⟨0, 0, 1⟩], [⟨⟨0, 0, 1⟩, true⟩]⟩]
      = ToolResult.exited 0 :=
  ⟨rfl, rfl⟩

end CGALSpec
